import Mathlib

/-!
Verification of the org-policy notifier pipeline (`src/main.py`).

The development shallowly embeds the pieces of the program the claims
are about:

* character-level models of the Python string operations used by
  `download_policy_file` / `upload_policy_file` (`'\n'.join`, line
  iteration, `str.rstrip`) and by `post_to_twitter`
  (`policy.split('constraints/')[-1]`);
* a model of the reconciler `compare_policies` as a function from an
  environment (baseline blob present or not, its parsed lines, the
  current constraint listing) to the sequence of externally visible
  events of a run together with the process exit code;
* models of `post_to_slack` and `get_latest_secret` including their
  explicit error handling (`try`/`except` blocks that call
  `sys.exit(1)` respectively swallow `FailedPrecondition`).
-/

namespace OrgPolicyNotifier

/-! ### Python string primitives -/

/-- Whitespace characters stripped by an argumentless Python
`str.rstrip()`: exactly the characters for which `str.isspace()` holds
(CPython's `Py_UNICODE_ISSPACE`): tab, line feed, vertical tab, form
feed, carriage return, the four information separators U+001C-U+001F,
space, next line U+0085, no-break space U+00A0, Ogham space mark
U+1680, the fixed-width spaces U+2000-U+200A, line separator U+2028,
paragraph separator U+2029, narrow no-break space U+202F, medium
mathematical space U+205F and ideographic space U+3000. -/
def pyIsSpace (c : Char) : Bool :=
  (0x09 ≤ c.toNat && c.toNat ≤ 0x0D) || (0x1C ≤ c.toNat && c.toNat ≤ 0x1F) ||
  c.toNat == 0x20 || c.toNat == 0x85 || c.toNat == 0xA0 || c.toNat == 0x1680 ||
  (0x2000 ≤ c.toNat && c.toNat ≤ 0x200A) || c.toNat == 0x2028 || c.toNat == 0x2029 ||
  c.toNat == 0x202F || c.toNat == 0x205F || c.toNat == 0x3000

/-- Model of Python `s.rstrip()`: remove trailing whitespace. -/
def pyRstrip (s : List Char) : List Char :=
  (s.reverse.dropWhile pyIsSpace).reverse

/-- Everything after the last `'/'` of a string (the whole string if it
has no `'/'`). This is the "human-readable suffix after the last `/`"
of the specification. -/
def afterLastSlash (s : List Char) : List Char :=
  (s.reverse.takeWhile (fun c => c != '/')).reverse

/-- The separator used by `post_to_twitter`:
`policy.split('constraints/')`. -/
def sepConstraints : List Char := String.toList "constraints/"

/-- Helper for Python `s.split('constraints/')[-1]`: returns `some` of
the part after the last (left-to-right, non-overlapping) occurrence of
the separator, or `none` when the separator does not occur. -/
def afterSepAux : List Char → Option (List Char)
  | [] => none
  | c :: cs =>
    if sepConstraints.isPrefixOf (c :: cs) then
      some ((afterSepAux ((c :: cs).drop sepConstraints.length)).getD
        ((c :: cs).drop sepConstraints.length))
    else afterSepAux cs
termination_by s => s.length
decreasing_by
  · have h12 : sepConstraints.length = 12 := rfl
    simp [h12]
    omega
  · simp

/-- Model of Python `s.split('constraints/')[-1]` as used in
`post_to_twitter`. -/
def afterConstraints (s : List Char) : List Char :=
  (afterSepAux s).getD s

/-- The fixed text prefix of both the Slack and the Twitter message
in `post_to_slack` / `post_to_twitter`. -/
def tweetHead : List Char := String.toList "New Organization Policy Detected: "

/-- Model of the f-string composed in `post_to_twitter`:
`f"New Organization Policy Detected: {policy.split('constraints/')[-1]} {commit['commit'].url}"`. -/
def tweetContent (policy url : List Char) : List Char :=
  tweetHead ++ afterConstraints policy ++ ' ' :: url

/-! ### Baseline serialization (`upload_policy_file` / `download_policy_file`) -/

/-- Model of Python `'\n'.join(names)`, the serialization written by
`upload_policy_file` to the local staging file and uploaded to GCS. -/
def joinLines : List (List Char) → List Char
  | [] => []
  | [n] => n
  | n :: m :: rest => n ++ '\n' :: joinLines (m :: rest)

/-- `BaselineStore.save`: the blob content produced from a list of
constraint names. -/
def saveBaseline (names : List (List Char)) : List Char := joinLines names

/-- Universal-newline translation performed by Python when reading the
file back in text mode: `"\r\n"` and a lone `"\r"` both become `"\n"`. -/
def normalizeNewlines : List Char → List Char
  | [] => []
  | '\r' :: '\n' :: rest => '\n' :: normalizeNewlines rest
  | '\r' :: rest => '\n' :: normalizeNewlines rest
  | c :: rest => c :: normalizeNewlines rest

/-- Python file line iteration: split after each `'\n'` keeping the
newline; a final segment without a trailing newline is kept only when
nonempty (reading the empty file yields no lines). -/
def splitLinesKeep : List Char → List (List Char)
  | [] => []
  | c :: cs =>
    if c = '\n' then ['\n'] :: splitLinesKeep cs
    else
      match splitLinesKeep cs with
      | [] => [[c]]
      | l :: ls => (c :: l) :: ls

/-- `BaselineStore.load`: `download_policy_file` reads the blob in text
mode and returns `[line.rstrip() for line in policy_file]`. -/
def loadBaseline (content : List Char) : List (List Char) :=
  (splitLinesKeep (normalizeNewlines content)).map pyRstrip

/-! ### The reconciler pipeline (`compare_policies`)

The environment fixes what the external collaborators answer during one
run: whether the baseline blob exists in the bucket, the parsed old
policy list (the value returned by `fetch_old_policies`), and the
current constraint listing (the value returned by
`constraint_transform`; `list_org_policies` is deterministic within a
run, so the re-fetches in `create_pr_file_content` and
`upload_policy_file` see the same listing). `comparePolicies` models a
run in which the external notifier calls themselves succeed; the error
handling inside the individual notifiers and the secret accessor is
modelled separately by `postToSlack` and `getLatestSecret` below. -/

/-- Externally visible side effects of one run, in order. -/
inductive Event where
  | createPR (listing : List String)
  | slackPost (policy : String)
  | tweetPost (policy : String)
  | uploadBaseline (content : List String)
deriving DecidableEq, Repr

/-- The external world of one run. -/
structure Env where
  blobExists : Bool
  oldPolicies : List String
  listing : List String
deriving DecidableEq, Repr

/-- Lexicographic code-point comparison of two character lists;
Python compares strings exactly this way. -/
def charListLeb : List Char → List Char → Bool
  | [], _ => true
  | _ :: _, [] => false
  | a :: as, b :: bs =>
    if a = b then charListLeb as bs
    else decide (a < b)

/-- Python's `<=` on strings: lexicographic by code point. -/
def strLeb (a b : String) : Bool := charListLeb a.data b.data

/-- The string comparison as a relation, for `List.insertionSort`. -/
def strRel (a b : String) : Prop := strLeb a b = true

instance : DecidableRel strRel := fun a b =>
  (inferInstance : Decidable (strLeb a b = true))

instance : IsTotal String strRel :=
  ⟨fun a b => by
    have key : ∀ x y : List Char, charListLeb x y || charListLeb y x := by
      intro x y
      induction x generalizing y with
      | nil => simp [charListLeb]
      | cons x as ih =>
        cases y with
        | nil => simp [charListLeb]
        | cons y bs =>
          by_cases hxy : x = y
          · subst hxy
            simpa [charListLeb] using ih bs
          · have : x < y ∨ y < x := lt_or_gt_of_ne hxy
            rcases this with h | h <;>
              simp [charListLeb, hxy, Ne.symm hxy, h, not_lt_of_lt h]
    have := key a.data b.data
    rcases Bool.or_eq_true_iff.mp (by simpa using this) with h | h
    · exact Or.inl h
    · exact Or.inr h⟩

instance : IsTrans String strRel :=
  ⟨fun a b c h₁ h₂ => by
    have key : ∀ x y z : List Char, charListLeb x y → charListLeb y z → charListLeb x z := by
      intro x y z h₁ h₂
      induction x generalizing y z with
      | nil => simp [charListLeb]
      | cons x as ih =>
        cases y with
        | nil => simp [charListLeb] at h₁
        | cons y bs =>
          cases z with
          | nil => simp [charListLeb] at h₂
          | cons z cs =>
            by_cases hxy : x = y <;> by_cases hyz : y = z
            · subst hxy; subst hyz
              simp [charListLeb] at h₁ h₂ ⊢
              exact ih bs cs h₁ h₂
            · subst hxy
              simp [charListLeb, hyz] at h₂ ⊢
              simpa [hyz] using h₂
            · subst hyz
              simp [charListLeb, hxy] at h₁ ⊢
              simpa [hxy] using h₁
            · simp [charListLeb, hxy, hyz] at h₁ h₂
              have hxz : x < z := lt_trans h₁ h₂
              simp [charListLeb, ne_of_lt hxz, hxz]
    exact key a.data b.data c.data h₁ h₂⟩

instance : IsAntisymm String strRel :=
  ⟨fun a b h₁ h₂ => by
    have key : ∀ x y : List Char, charListLeb x y → charListLeb y x → x = y := by
      intro x y h₁ h₂
      induction x generalizing y with
      | nil =>
        cases y with
        | nil => rfl
        | cons y bs => simp [charListLeb] at h₂
      | cons x as ih =>
        cases y with
        | nil => simp [charListLeb] at h₁
        | cons y bs =>
          by_cases hxy : x = y
          · subst hxy
            simp [charListLeb] at h₁ h₂
            rw [ih bs h₁ h₂]
          · simp [charListLeb, hxy, Ne.symm hxy] at h₁ h₂
            exact absurd h₂ (not_lt_of_lt h₁)
    exact String.ext (key a.data b.data h₁ h₂)⟩

/-- Model of Python `list.sort()` on a list of strings: the result is
the unique sorted permutation of the input (sorted by code-point
lexicographic order, as Python sorts strings), here computed by
insertion sort. -/
def sortNames (l : List String) : List String :=
  List.insertionSort strRel l

/-- Model of `list(set(current_policies) - set(old_policies))` in
`compare_policies` (applied there to the sorted lists). Python
materializes the set in an unspecified order; the model picks the
sorted order with duplicates removed, which has the same elements. -/
def newPolicies (old current : List String) : List String :=
  (sortNames current).dedup.filter (fun p => decide (p ∉ sortNames old))

/-- Model of one run of `compare_policies` (entered through
`announce_kickoff`): the emitted events and the process exit code.
When the baseline blob is absent, `fetch_old_policies` calls
`upload_policy_file`, which uploads the current listing and calls
`sys.exit(0)`.  Otherwise the sorted lists are compared; on equality
the function just returns (exit 0), and on inequality it creates the
GitHub pull request over the full current listing, posts one Slack
message and one tweet per element of the set difference, uploads the
current listing as the new baseline and exits 0. -/
def comparePolicies (env : Env) : List Event × Nat :=
  if env.blobExists then
    if sortNames env.listing = sortNames env.oldPolicies then ([], 0)
    else
      (Event.createPR env.listing ::
        ((newPolicies env.oldPolicies env.listing).map Event.slackPost ++
         (newPolicies env.oldPolicies env.listing).map Event.tweetPost ++
         [Event.uploadBaseline env.listing]), 0)
  else ([Event.uploadBaseline env.listing], 0)

/-! ### Error handling of the individual collaborators -/

/-- Outcome of one `requests.request("POST", ...)` call: either a
response (with some HTTP status code, which `post_to_slack` never
inspects) or a raised transport exception. -/
inductive HttpOutcome where
  | response (status : Nat)
  | transportError
deriving DecidableEq, Repr

/-- The text posted for one policy by `post_to_slack`. -/
def slackMessage (policy : String) : String :=
  "New Organization Policy Detected: " ++ policy

/-- Model of the loop of `post_to_slack`: one POST per element of
`new_policies`; a response of any status is accepted and the loop
continues, while a raised exception hits the `except` block, which
calls `sys.exit(1)`.  `Except.ok` carries the delivered messages,
`Except.error` the exit code. -/
def postToSlack (out : String → HttpOutcome) : List String → Except Nat (List String)
  | [] => Except.ok []
  | p :: ps =>
    match out p with
    | HttpOutcome.transportError => Except.error 1
    | HttpOutcome.response _ =>
      match postToSlack out ps with
      | Except.ok sent => Except.ok (slackMessage p :: sent)
      | Except.error code => Except.error code

/-- What the secret store does for one `access_secret_version` call. -/
inductive SecretOutcome where
  | ok (value : List Char)
  | failedPrecondition
  | raised
deriving DecidableEq, Repr

/-- Model of `get_latest_secret`: on success the payload is decoded and
`rstrip`-ed; a `FailedPrecondition` exception is caught, logged and the
function falls through returning `None`; any other exception is not
caught and propagates out of the function (`Except.error`). -/
def getLatestSecret (store : String → SecretOutcome) (name : String) :
    Except Unit (Option (List Char)) :=
  match store name with
  | SecretOutcome.ok v => Except.ok (some (pyRstrip v))
  | SecretOutcome.failedPrecondition => Except.ok none
  | SecretOutcome.raised => Except.error ()

/-! ### Helper lemmas -/

theorem sortNames_perm (l : List String) : List.Perm (sortNames l) l :=
  List.perm_insertionSort strRel l

theorem mem_sortNames {p : String} {l : List String} : p ∈ sortNames l ↔ p ∈ l :=
  (sortNames_perm l).mem_iff

theorem sortNames_eq_of_perm {l l' : List String} (h : List.Perm l l') :
    sortNames l = sortNames l' :=
  List.eq_of_perm_of_sorted ((sortNames_perm l).trans (h.trans (sortNames_perm l').symm))
    (List.sorted_insertionSort strRel l) (List.sorted_insertionSort strRel l')

theorem mem_newPolicies {old current : List String} {p : String} :
    p ∈ newPolicies old current ↔ p ∈ current ∧ p ∉ old := by
  simp [newPolicies, mem_sortNames]

theorem newPolicies_toFinset (old current : List String) :
    (newPolicies old current).toFinset = current.toFinset \ old.toFinset := by
  ext p
  simp [mem_newPolicies, List.mem_toFinset, Finset.mem_sdiff]

theorem newPolicies_nodup (old current : List String) : (newPolicies old current).Nodup :=
  (List.nodup_dedup _).filter _

theorem comparePolicies_diff (env : Env) (hb : env.blobExists = true)
    (hne : sortNames env.listing ≠ sortNames env.oldPolicies) :
    comparePolicies env =
      (Event.createPR env.listing ::
        ((newPolicies env.oldPolicies env.listing).map Event.slackPost ++
         (newPolicies env.oldPolicies env.listing).map Event.tweetPost ++
         [Event.uploadBaseline env.listing]), 0) := by
  simp [comparePolicies, hb, hne]

/-! ### Claims -/

/-- C1: for every baseline list `old` and current listing `current`,
when the sorted lists differ, the set of new policies computed by the
reconciler equals the asymmetric set difference
`current_set − old_set` exactly, and the result does not depend on the
order of either input sequence. -/
theorem c1_new_policies_asymmetric_diff (old current old' current' : List String)
    (_hne : sortNames current ≠ sortNames old)
    (hold : List.Perm old' old) (hcur : List.Perm current' current) :
    (newPolicies old current).toFinset = current.toFinset \ old.toFinset ∧
    (newPolicies old' current').toFinset = (newPolicies old current).toFinset := by
  refine ⟨newPolicies_toFinset old current, ?_⟩
  rw [newPolicies_toFinset, newPolicies_toFinset,
    List.toFinset_eq_of_perm _ _ hold, List.toFinset_eq_of_perm _ _ hcur]

/-- Witness for C1, on the spec's example `old = {A,B}`,
`current = {A,B,C}`: the diff is exactly `{C}` and reordering both
inputs leaves it unchanged. -/
theorem c1_witness :
    (newPolicies ["A", "B"] ["A", "B", "C"]).toFinset = ({"C"} : Finset String) ∧
    (newPolicies ["B", "A"] ["C", "A", "B"]).toFinset = ({"C"} : Finset String) := by
  have h := c1_new_policies_asymmetric_diff ["A", "B"] ["A", "B", "C"] ["B", "A"] ["C", "A", "B"]
    (by decide) (by decide) (by decide)
  have hset : (["A", "B", "C"] : List String).toFinset \ (["A", "B"] : List String).toFinset
      = ({"C"} : Finset String) := by decide
  exact ⟨h.1.trans hset, h.2.trans (h.1.trans hset)⟩

/-- C2 counterexample: the code compares the *sorted sequences*, not
sets.  `old = ["A", "A"]` and `current = ["A"]` are equal as sets, yet
the run takes the "difference detected" branch: it invokes the
pull-request notifier and overwrites the baseline blob. -/
theorem c2_counterexample :
    (["A", "A"] : List String).toFinset = (["A"] : List String).toFinset ∧
    comparePolicies ⟨true, ["A", "A"], ["A"]⟩ =
      ([Event.createPR ["A"], Event.uploadBaseline ["A"]], 0) := by
  constructor
  · decide
  · decide

/-- C2 (amended): for input sequences that are equal as multisets
(permutations of one another) — in particular set-equal inputs without
duplicates — regardless of order, the reconciler invokes no notifier
and does not write the baseline blob: the run emits no event and exits
successfully. -/
theorem c2_multiset_equal_noop (env : Env) (hb : env.blobExists = true)
    (h : List.Perm env.oldPolicies env.listing) :
    comparePolicies env = ([], 0) := by
  have hs : sortNames env.listing = sortNames env.oldPolicies := sortNames_eq_of_perm h.symm
  simp [comparePolicies, hb, hs]

/-- Witness for C2 (amended): equal contents in different input order
produce a run with no events. -/
theorem c2_witness : comparePolicies ⟨true, ["B", "A"], ["A", "B"]⟩ = ([], 0) :=
  c2_multiset_equal_noop ⟨true, ["B", "A"], ["A", "B"]⟩ rfl (by decide)

/-- C3: when the baseline blob does not exist, the run uploads exactly
one baseline whose content is the current constraint listing, performs
no notifications of any kind, and exits 0 immediately after the
upload. -/
theorem c3_bootstrap (env : Env) (h : env.blobExists = false) :
    comparePolicies env = ([Event.uploadBaseline env.listing], 0) ∧
    (comparePolicies env).1.count (Event.uploadBaseline env.listing) = 1 ∧
    (∀ l p, Event.createPR l ∉ (comparePolicies env).1 ∧
      Event.slackPost p ∉ (comparePolicies env).1 ∧
      Event.tweetPost p ∉ (comparePolicies env).1) := by
  have he : comparePolicies env = ([Event.uploadBaseline env.listing], 0) := by
    simp [comparePolicies, h]
  refine ⟨he, ?_, ?_⟩
  · rw [he]
    simp
  · intro l p
    rw [he]
    refine ⟨?_, ?_, ?_⟩ <;> simp

/-- Witness for C3 at a concrete environment with no baseline blob. -/
theorem c3_witness :
    comparePolicies ⟨false, [], ["A", "B"]⟩ = ([Event.uploadBaseline ["A", "B"]], 0) ∧
    Event.slackPost "A" ∉ (comparePolicies ⟨false, [], ["A", "B"]⟩).1 := by
  have h := c3_bootstrap ⟨false, [], ["A", "B"]⟩ rfl
  exact ⟨h.1, (h.2.2 [] "A").2.1⟩

/-- C4: in every run that detected a difference, the baseline saved at
the end equals — as written, and hence as a set of names — the current
listing obtained in step 2 and used for the comparison and diff: the
final event is `uploadBaseline env.listing`, and every uploaded
baseline of the run has the same name set as the listing. -/
theorem c4_saved_baseline_is_current (env : Env) (hb : env.blobExists = true)
    (hne : sortNames env.listing ≠ sortNames env.oldPolicies) :
    (comparePolicies env).1.getLast? = some (Event.uploadBaseline env.listing) ∧
    ∀ c, Event.uploadBaseline c ∈ (comparePolicies env).1 →
      c.toFinset = env.listing.toFinset := by
  have ht := comparePolicies_diff env hb hne
  constructor
  · rw [ht]
    have hshape : Event.createPR env.listing ::
        ((newPolicies env.oldPolicies env.listing).map Event.slackPost ++
         (newPolicies env.oldPolicies env.listing).map Event.tweetPost ++
         [Event.uploadBaseline env.listing]) =
        (Event.createPR env.listing ::
          ((newPolicies env.oldPolicies env.listing).map Event.slackPost ++
           (newPolicies env.oldPolicies env.listing).map Event.tweetPost)) ++
        [Event.uploadBaseline env.listing] := by
      simp
    show (Event.createPR env.listing ::
        ((newPolicies env.oldPolicies env.listing).map Event.slackPost ++
         (newPolicies env.oldPolicies env.listing).map Event.tweetPost ++
         [Event.uploadBaseline env.listing])).getLast? =
      some (Event.uploadBaseline env.listing)
    rw [hshape]
    exact List.getLast?_concat _
  · intro c hc
    rw [ht] at hc
    simp at hc
    rw [hc]

/-- Witness for C4 at a concrete environment. -/
theorem c4_witness :
    (comparePolicies ⟨true, ["A"], ["A", "B"]⟩).1.getLast? =
      some (Event.uploadBaseline ["A", "B"]) ∧
    (["A", "B"] : List String).toFinset = (["A", "B"] : List String).toFinset := by
  have h := c4_saved_baseline_is_current ⟨true, ["A"], ["A", "B"]⟩ rfl (by decide)
  exact ⟨h.1, h.2 ["A", "B"] (by decide)⟩

/-- C6: in every (nominal) run that performs notifications, the
pull-request creation happens strictly before any chat message and any
social post; chat and social notifications are emitted exactly once
per element of the new-policy set; and no chat or social notification
is ever emitted for a name present in both old and current. -/
theorem c6_pr_precedes_and_counts (env : Env) (hb : env.blobExists = true)
    (hne : sortNames env.listing ≠ sortNames env.oldPolicies) :
    (∀ (i j : Nat) (p : String),
      (comparePolicies env).1[i]? = some (Event.createPR env.listing) →
      ((comparePolicies env).1[j]? = some (Event.slackPost p) ∨
       (comparePolicies env).1[j]? = some (Event.tweetPost p)) → i < j) ∧
    (∀ p, p ∈ env.listing.toFinset \ env.oldPolicies.toFinset →
      (comparePolicies env).1.count (Event.slackPost p) = 1 ∧
      (comparePolicies env).1.count (Event.tweetPost p) = 1) ∧
    (∀ p, p ∈ env.oldPolicies → p ∈ env.listing →
      Event.slackPost p ∉ (comparePolicies env).1 ∧
      Event.tweetPost p ∉ (comparePolicies env).1) := by
  have ht := comparePolicies_diff env hb hne
  have htrace : (comparePolicies env).1 =
      Event.createPR env.listing ::
        ((newPolicies env.oldPolicies env.listing).map Event.slackPost ++
         (newPolicies env.oldPolicies env.listing).map Event.tweetPost ++
         [Event.uploadBaseline env.listing]) := by
    rw [ht]
  refine ⟨?_, ?_, ?_⟩
  · intro i j p hci hj
    have hi0 : i = 0 := by
      by_contra h0
      obtain ⟨i', rfl⟩ := Nat.exists_eq_succ_of_ne_zero h0
      rw [htrace] at hci
      rw [List.getElem?_cons_succ] at hci
      have := List.getElem?_mem hci
      simp at this
    have hj0 : j ≠ 0 := by
      intro hj0
      subst hj0
      rw [htrace] at hj
      rcases hj with hj | hj <;> simp at hj
    omega
  · intro p hp
    have hpN : p ∈ newPolicies env.oldPolicies env.listing := by
      rw [mem_newPolicies]
      rcases Finset.mem_sdiff.mp hp with ⟨h1, h2⟩
      exact ⟨List.mem_toFinset.mp h1, fun hc => h2 (List.mem_toFinset.mpr hc)⟩
    have hcount : (newPolicies env.oldPolicies env.listing).count p = 1 :=
      List.count_eq_one_of_mem (newPolicies_nodup _ _) hpN
    have hinjS : Function.Injective Event.slackPost := fun a b h => by injection h
    have hinjT : Function.Injective Event.tweetPost := fun a b h => by injection h
    constructor
    · rw [htrace]
      have e1 : ((newPolicies env.oldPolicies env.listing).map Event.slackPost).count
          (Event.slackPost p) = 1 := by
        rw [List.count_map_of_injective _ _ hinjS]
        exact hcount
      simp [List.count_cons, List.count_append, e1, List.count_eq_zero]
    · rw [htrace]
      have e1 : ((newPolicies env.oldPolicies env.listing).map Event.tweetPost).count
          (Event.tweetPost p) = 1 := by
        rw [List.count_map_of_injective _ _ hinjT]
        exact hcount
      simp [List.count_cons, List.count_append, e1, List.count_eq_zero]
  · intro p hpo hpc
    have hnp : p ∉ newPolicies env.oldPolicies env.listing := by
      simp [mem_newPolicies, hpo]
    rw [htrace]
    constructor <;> simp [hnp]

/-- Witness for C6 at a concrete environment with one new policy. -/
theorem c6_witness :
    (0 : Nat) < 1 ∧
    (comparePolicies ⟨true, ["A"], ["A", "B"]⟩).1.count (Event.slackPost "B") = 1 ∧
    Event.tweetPost "A" ∉ (comparePolicies ⟨true, ["A"], ["A", "B"]⟩).1 := by
  have h := c6_pr_precedes_and_counts ⟨true, ["A"], ["A", "B"]⟩ rfl (by decide)
  exact ⟨h.1 0 1 "B" (by decide) (Or.inl (by decide)),
    (h.2.1 "B" (by decide)).1, (h.2.2 "A" (by decide) (by decide)).2⟩

/-- C7: when the current listing is a strict subset of the baseline,
the run reports no new policies — no chat message and no social post
at all — yet still overwrites the baseline blob with exactly the
current listing, and exits successfully. -/
theorem c7_removal_invisible (env : Env) (hb : env.blobExists = true)
    (hsub : env.listing.toFinset ⊂ env.oldPolicies.toFinset) :
    (∀ p, Event.slackPost p ∉ (comparePolicies env).1 ∧
      Event.tweetPost p ∉ (comparePolicies env).1) ∧
    Event.uploadBaseline env.listing ∈ (comparePolicies env).1 ∧
    (comparePolicies env).2 = 0 := by
  have hne : sortNames env.listing ≠ sortNames env.oldPolicies := by
    intro h
    have hperm0 : List.Perm (sortNames env.listing) env.oldPolicies := by
      rw [h]
      exact sortNames_perm _
    have hperm : List.Perm env.listing env.oldPolicies :=
      (sortNames_perm env.listing).symm.trans hperm0
    exact hsub.ne (List.toFinset_eq_of_perm _ _ hperm)
  have hnil : newPolicies env.oldPolicies env.listing = [] := by
    apply List.filter_eq_nil_iff.mpr
    intro p hp
    have hpc : p ∈ env.listing := mem_sortNames.mp (List.mem_dedup.mp hp)
    have hpo : p ∈ env.oldPolicies :=
      List.mem_toFinset.mp (hsub.subset (List.mem_toFinset.mpr hpc))
    simp [mem_sortNames, hpo]
  have ht := comparePolicies_diff env hb hne
  rw [ht, hnil]
  refine ⟨?_, ?_, ?_⟩
  · intro p
    constructor <;> simp
  · simp
  · rfl

/-- Witness for C7 on the spec's example `old = {A,B}`, `current = {A}`. -/
theorem c7_witness :
    Event.slackPost "A" ∉ (comparePolicies ⟨true, ["A", "B"], ["A"]⟩).1 ∧
    Event.uploadBaseline ["A"] ∈ (comparePolicies ⟨true, ["A", "B"], ["A"]⟩).1 := by
  have h := c7_removal_invisible ⟨true, ["A", "B"], ["A"]⟩ rfl (by decide)
  exact ⟨(h.1 "A").1, h.2.1⟩

theorem pyIsSpace_newline : pyIsSpace '\n' = true := by decide

theorem pyRstrip_append_newline (a : List Char) : pyRstrip (a ++ ['\n']) = pyRstrip a := by
  simp [pyRstrip, List.reverse_append, List.dropWhile_cons, pyIsSpace_newline]

theorem norm_cons_ne_cr {c : Char} {cs : List Char} (hc : c ≠ '\r') :
    normalizeNewlines (c :: cs) = c :: normalizeNewlines cs := by
  cases cs with
  | nil => simp [normalizeNewlines, hc]
  | cons d ds => simp [normalizeNewlines, hc]

theorem norm_id_of_no_cr {s : List Char} (h : '\r' ∉ s) : normalizeNewlines s = s := by
  induction s with
  | nil => rfl
  | cons c cs ih =>
    have hc : c ≠ '\r' := fun hc => h (hc ▸ List.mem_cons_self c cs)
    have hcs : '\r' ∉ cs := fun hm => h (List.mem_cons_of_mem _ hm)
    rw [norm_cons_ne_cr hc, ih hcs]

theorem cr_not_mem_joinLines {ns : List (List Char)} (h : ∀ n ∈ ns, '\r' ∉ n) :
    '\r' ∉ joinLines ns := by
  induction ns with
  | nil => simp [joinLines]
  | cons n ms ih =>
    cases ms with
    | nil => simpa [joinLines] using h n (by simp)
    | cons m rest =>
      rw [joinLines]
      intro hmem
      rcases List.mem_append.mp hmem with hmem | hmem
      · exact h n (by simp) hmem
      · rcases List.mem_cons.mp hmem with heq | hmem
        · exact absurd heq (by decide)
        · exact ih (fun x hx => h x (List.mem_cons_of_mem _ hx)) hmem

theorem splitLinesKeep_no_newline {a : List Char} (h : '\n' ∉ a) (hne : a ≠ []) :
    splitLinesKeep a = [a] := by
  induction a with
  | nil => exact absurd rfl hne
  | cons c cs ih =>
    have hc : c ≠ '\n' := fun hc => h (hc ▸ List.mem_cons_self c cs)
    have hcs : '\n' ∉ cs := fun hm => h (List.mem_cons_of_mem _ hm)
    rw [splitLinesKeep, if_neg hc]
    cases cs with
    | nil => rfl
    | cons m rest => rw [ih hcs (by simp)]

theorem splitLinesKeep_append_newline {a : List Char} (h : '\n' ∉ a) (t : List Char) :
    splitLinesKeep (a ++ '\n' :: t) = (a ++ ['\n']) :: splitLinesKeep t := by
  induction a with
  | nil =>
    rw [List.nil_append]
    rw [splitLinesKeep, if_pos rfl]
    rfl
  | cons c cs ih =>
    have hc : c ≠ '\n' := fun hc => h (hc ▸ List.mem_cons_self c cs)
    have hcs : '\n' ∉ cs := fun hm => h (List.mem_cons_of_mem _ hm)
    rw [List.cons_append, splitLinesKeep, if_neg hc, ih hcs]
    simp

theorem loadBaseline_saveBaseline : ∀ names : List (List Char),
    (∀ n ∈ names, n ≠ [] ∧ '\n' ∉ n ∧ '\r' ∉ n ∧ pyRstrip n = n) →
    loadBaseline (saveBaseline names) = names := by
  intro names
  induction names with
  | nil => intro _; rfl
  | cons n ms ih =>
    intro h
    have hnorm : normalizeNewlines (saveBaseline (n :: ms)) = saveBaseline (n :: ms) :=
      norm_id_of_no_cr (cr_not_mem_joinLines (fun x hx => (h x hx).2.2.1))
    obtain ⟨hne, hnl, _, hrs⟩ := h n (by simp)
    rw [loadBaseline, hnorm]
    cases ms with
    | nil =>
      rw [saveBaseline, joinLines, splitLinesKeep_no_newline hnl hne]
      simp [hrs]
    | cons m rest =>
      rw [saveBaseline, joinLines, splitLinesKeep_append_newline hnl, List.map_cons,
        pyRstrip_append_newline, hrs]
      congr 1
      have := ih (fun x hx => h x (List.mem_cons_of_mem _ hx))
      have hnorm' : normalizeNewlines (saveBaseline (m :: rest)) = saveBaseline (m :: rest) :=
        norm_id_of_no_cr (cr_not_mem_joinLines
          (fun x hx => (h x (List.mem_cons_of_mem _ hx)).2.2.1))
      rw [loadBaseline, hnorm'] at this
      exact this

/-- C5 counterexample: the round trip does not hold for every list of
names.  A name containing a newline is split into two different names
by `load`: saving the single name `"a\nb"` and loading yields the set
`{"a", "b"}`, not `{"a\nb"}`. -/
theorem c5_counterexample :
    (loadBaseline (saveBaseline [['a', '\n', 'b']])).toFinset ≠
      ([['a', '\n', 'b']] : List (List Char)).toFinset := by
  decide

/-- C5 (amended): for every list of names that are nonempty, contain
no newline or carriage return, and have no trailing whitespace,
`save` followed by `load` returns exactly the saved list — hence a set
equal to the set saved — independent of the order of the lines in the
persisted file (saving any reordering loads the same set). -/
theorem c5_roundtrip (names names' : List (List Char))
    (hgood : ∀ n ∈ names, n ≠ [] ∧ '\n' ∉ n ∧ '\r' ∉ n ∧ pyRstrip n = n)
    (hperm : List.Perm names' names) :
    loadBaseline (saveBaseline names') = names' ∧
    (loadBaseline (saveBaseline names')).toFinset = names.toFinset := by
  have hmain := loadBaseline_saveBaseline names' (fun n hn => hgood n (hperm.subset hn))
  refine ⟨hmain, ?_⟩
  rw [hmain]
  exact List.toFinset_eq_of_perm _ _ hperm

/-- Witness for C5 (amended) at two concrete orderings of `{a, b}`. -/
theorem c5_witness :
    loadBaseline (saveBaseline [['b'], ['a']]) = [['b'], ['a']] ∧
    (loadBaseline (saveBaseline [['b'], ['a']])).toFinset =
      ([['a'], ['b']] : List (List Char)).toFinset :=
  c5_roundtrip [['a'], ['b']] [['b'], ['a']] (by decide) (by decide)

theorem afterLastSlash_suffix_self (s : List Char) : afterLastSlash s <:+ s := by
  have h2 : (s.reverse.takeWhile (fun c => c != '/')).reverse <:+ s.reverse.reverse :=
    List.reverse_suffix.mpr (List.takeWhile_prefix _)
  simpa [afterLastSlash] using h2

theorem takeWhile_append_cons (p : Char → Bool) (x : List Char) (c : Char) (y : List Char)
    (hc : p c = false) : (x ++ c :: y).takeWhile p = x.takeWhile p := by
  induction x with
  | nil => simp [List.takeWhile_cons, hc]
  | cons d x ih =>
    rw [List.cons_append, List.takeWhile_cons, List.takeWhile_cons]
    cases hd : p d <;> simp [ih]

theorem takeWhile_append_of_mem_false (p : Char → Bool) (x y : List Char)
    (h : ∃ c ∈ x, p c = false) : (x ++ y).takeWhile p = x.takeWhile p := by
  induction x with
  | nil => simp at h
  | cons d x ih =>
    cases hd : p d with
    | false => simp [List.takeWhile_cons, hd]
    | true =>
      obtain ⟨c, hc, hcf⟩ := h
      rcases List.mem_cons.mp hc with rfl | hc'
      · rw [hd] at hcf
        cases hcf
      · rw [List.cons_append, List.takeWhile_cons, List.takeWhile_cons]
        simp [hd, ih ⟨c, hc', hcf⟩]

theorem afterLastSlash_append_slash (a b : List Char) :
    afterLastSlash (a ++ '/' :: b) = afterLastSlash b := by
  have hrev : (a ++ '/' :: b).reverse = b.reverse ++ '/' :: a.reverse := by
    simp
  rw [afterLastSlash, hrev, takeWhile_append_cons _ _ _ _ (by decide)]
  rfl

theorem afterLastSlash_append_of_mem (x y : List Char) (h : '/' ∈ y) :
    afterLastSlash (x ++ y) = afterLastSlash y := by
  rw [afterLastSlash, List.reverse_append,
    takeWhile_append_of_mem_false _ _ _ ⟨'/', by simpa using h, by decide⟩]
  rfl

theorem mem_slash_of_afterSepAux : ∀ {s t : List Char}, afterSepAux s = some t → '/' ∈ s := by
  intro s t h
  induction s using afterSepAux.induct with
  | case1 => simp [afterSepAux] at h
  | case2 c cs hpre ih =>
    obtain ⟨rest, hrest⟩ := List.isPrefixOf_iff_prefix.mp hpre
    rw [← hrest]
    have : '/' ∈ sepConstraints := by decide
    exact List.mem_append.mpr (Or.inl this)
  | case3 c cs hpre ih =>
    rw [afterSepAux, if_neg (by simpa using hpre)] at h
    exact List.mem_cons_of_mem _ (ih h)

theorem afterLastSlash_suffix_afterConstraints (s : List Char) :
    afterLastSlash s <:+ afterConstraints s := by
  induction s using afterSepAux.induct with
  | case1 => simp [afterConstraints, afterSepAux, afterLastSlash]
  | case2 c cs hpre ih =>
    obtain ⟨rest, hrest⟩ := List.isPrefixOf_iff_prefix.mp hpre
    have hdrop : (c :: cs).drop sepConstraints.length = rest := by
      rw [← hrest]
      exact List.drop_left _ _
    have hac : afterConstraints (c :: cs) = afterConstraints rest := by
      rw [afterConstraints, afterSepAux, if_pos hpre, hdrop]
      rfl
    have hsep : (c :: cs) = String.toList "constraints" ++ '/' :: rest := by
      rw [← hrest]
      rfl
    have hals : afterLastSlash (c :: cs) = afterLastSlash rest := by
      rw [hsep, afterLastSlash_append_slash]
    rw [hals, hac]
    rw [hdrop] at ih
    exact ih
  | case3 c cs hpre ih =>
    cases hcs : afterSepAux cs with
    | none =>
      have hid : afterConstraints (c :: cs) = c :: cs := by
        rw [afterConstraints, afterSepAux, if_neg (by simpa using hpre), hcs]
        rfl
      rw [hid]
      exact afterLastSlash_suffix_self _
    | some t =>
      have hmem : '/' ∈ cs := mem_slash_of_afterSepAux hcs
      have hac : afterConstraints (c :: cs) = afterConstraints cs := by
        rw [afterConstraints, afterConstraints, afterSepAux,
          if_neg (by simpa using hpre), hcs]
        rfl
      have hals : afterLastSlash (c :: cs) = afterLastSlash cs :=
        afterLastSlash_append_of_mem [c] cs hmem
      rw [hals, hac]
      exact ih

/-- C8: the social post composed for a policy contains the
human-readable suffix of the name after the last `/` (the part the
code extracts with `split('constraints/')[-1]` always contains that
suffix) together with the commit reference URL returned by the
pull-request step. -/
theorem c8_tweet_contains_suffix_and_url (policy url : List Char) :
    afterLastSlash policy <:+: tweetContent policy url ∧
    url <:+: tweetContent policy url := by
  constructor
  · obtain ⟨pre, hpre⟩ := afterLastSlash_suffix_afterConstraints policy
    refine ⟨tweetHead ++ pre, ' ' :: url, ?_⟩
    rw [tweetContent, ← hpre]
    simp
  · refine ⟨tweetHead ++ afterConstraints policy ++ [' '], [], ?_⟩
    rw [tweetContent]
    simp

/-- C9: for every secret name, a precondition failure raised by the
secret store during retrieval does not terminate the run — the
function logs it and returns an absent value — while a successful
retrieval returns the decoded value and any other raised error
propagates out of `get_latest_secret` (and is fatal). -/
theorem c9_secret_error_handling (store : String → SecretOutcome) (name : String) :
    (store name = SecretOutcome.failedPrecondition →
      getLatestSecret store name = Except.ok none) ∧
    (∀ v, store name = SecretOutcome.ok v →
      getLatestSecret store name = Except.ok (some (pyRstrip v))) ∧
    (store name = SecretOutcome.raised →
      getLatestSecret store name = Except.error ()) := by
  refine ⟨?_, ?_, ?_⟩
  · intro h
    simp [getLatestSecret, h]
  · intro v h
    simp [getLatestSecret, h]
  · intro h
    simp [getLatestSecret, h]

/-- Witness for C9 at concrete secret stores. -/
theorem c9_witness :
    getLatestSecret (fun _ => SecretOutcome.failedPrecondition) "token" = Except.ok none ∧
    getLatestSecret (fun _ => SecretOutcome.raised) "token" = Except.error () :=
  ⟨(c9_secret_error_handling (fun _ => SecretOutcome.failedPrecondition) "token").1 rfl,
   (c9_secret_error_handling (fun _ => SecretOutcome.raised) "token").2.2 rfl⟩

/-- C10: the chat notifier sends one HTTP POST per policy and
continues regardless of the HTTP response status code — a delivery
rejected via an error status is silently ignored — while a raised
transport exception terminates the run with failure status (exit
code 1). -/
theorem c10_slack_ignores_status (out : String → HttpOutcome) (ps : List String) :
    ((∀ p ∈ ps, ∃ s, out p = HttpOutcome.response s) →
      postToSlack out ps = Except.ok (ps.map slackMessage)) ∧
    ((∃ p ∈ ps, out p = HttpOutcome.transportError) →
      postToSlack out ps = Except.error 1) := by
  induction ps with
  | nil =>
    constructor
    · intro _
      rfl
    · rintro ⟨p, hp, _⟩
      simp at hp
  | cons p ps ih =>
    constructor
    · intro h
      obtain ⟨s, hs⟩ := h p (List.mem_cons_self p ps)
      rw [postToSlack, hs, ih.1 (fun q hq => h q (List.mem_cons_of_mem _ hq))]
      rfl
    · rintro ⟨q, hq, hqe⟩
      rcases List.mem_cons.mp hq with rfl | hq'
      · rw [postToSlack, hqe]
      · cases hout : out p with
        | transportError => rw [postToSlack, hout]
        | response s =>
          rw [postToSlack, hout, ih.2 ⟨q, hq', hqe⟩]

/-- Witness for C10: two POSTs succeed even with HTTP 500 responses,
and a transport exception produces exit code 1. -/
theorem c10_witness :
    postToSlack (fun _ => HttpOutcome.response 500) ["a", "b"] =
      Except.ok [slackMessage "a", slackMessage "b"] ∧
    postToSlack (fun _ => HttpOutcome.transportError) ["a"] = Except.error 1 := by
  have h1 := (c10_slack_ignores_status (fun _ => HttpOutcome.response 500) ["a", "b"]).1
    (fun p _ => ⟨500, rfl⟩)
  have h2 := (c10_slack_ignores_status (fun _ => HttpOutcome.transportError) ["a"]).2
    ⟨"a", by simp, rfl⟩
  exact ⟨h1, h2⟩

end OrgPolicyNotifier
